import Mathlib

/-!
Verification of the polytrack daily-volatility pipeline.

The Python sources are shallowly embedded: floats are modelled as exact
rationals (ℚ), Python dicts as structures with `Option` fields, absent
keys as `none`, and the external HTTP/GraphQL calls as function
parameters supplying their results.  `round(x, 3)` is modelled as
nearest-integer rounding of the exact rational scaled by 1000 (the
half-way tie behaviour of IEEE-754 floats is immaterial to every
property proved here).
-/

set_option maxHeartbeats 1000000

namespace Polytrack

/-- Model of Python `round(x, 3)` on exact rationals. -/
def round3 (q : ℚ) : ℚ := (⌊q * 1000 + 1/2⌋ : ℚ) / 1000

theorem round3_nonneg {q : ℚ} (h : 0 ≤ q) : 0 ≤ round3 q := by
  unfold round3
  have h1 : (0 : ℤ) ≤ ⌊q * 1000 + 1/2⌋ := by
    apply Int.floor_nonneg.mpr
    have : (0 : ℚ) ≤ q * 1000 := by positivity
    linarith
  have h2 : (0 : ℚ) ≤ (⌊q * 1000 + 1/2⌋ : ℚ) := by exact_mod_cast h1
  positivity

/-! ## Data model

`Market` embeds the slim market record built by `scrape_markets`
(src/main/scraper.py): keys that may be missing from the dict are
`Option`s, `event_ids` defaults to the empty list exactly as
`markets_by_id.get(id, {}).get("event_ids", [])` does. -/

structure Market where
  conditionId : String
  question : String
  createdAt : Option String
  closedTime : Option String
  tokenId : Option String
  event_ids : List String
deriving Repr, DecidableEq

/-- One row of the GraphQL `marketOpenInterests` answer after the
`amount / 1_000_000` rescaling done in `fetch_batch`. -/
structure OIEntry where
  id : String
  amount : ℚ
deriving Repr, DecidableEq

/-! ## src/main/scraper.py : get_day_price_change (pure part)

The body of the retry loop once a response arrives: `hist` is the
`"history"` array, reduced to its `"p"` fields. -/

/-- Embeds lines 244-249 of src/main/scraper.py:
`if len(hist) < 2: return 0.0` else
`hist[-2]["p"] - hist[0]["p"] * 100` (the formula is preserved exactly,
including the missing parenthesis). -/
def get_day_price_change_hist (hist : List ℚ) : ℚ :=
  if hist.length < 2 then 0
  else hist.getD (hist.length - 2) 0 - hist.getD 0 0 * 100

/-! ## src/main/utils.py : get_yes_token_id

`json.loads` is external; the embedding takes its outcome as input
(`none` = `JSONDecodeError`).  Python truthiness and the semantics of
`x[0]` on each JSON shape are made explicit: subscripting a dict with
the int key `0` raises `KeyError`, which is *not* in the `except`
tuple `(JSONDecodeError, IndexError, TypeError)` of the source. -/

inductive Json where
  | null : Json
  | bool (b : Bool) : Json
  | num (q : ℚ) : Json
  | str (s : String) : Json
  | arr (elems : List Json) : Json
  | obj (fields : List (String × Json)) : Json
deriving Repr

inductive PyExc where
  | indexError : PyExc
  | typeError : PyExc
  | keyError : PyExc
deriving Repr, DecidableEq

/-- Python truthiness of a parsed JSON value. -/
def Json.truthy : Json → Bool
  | .null => false
  | .bool b => b
  | .num q => decide (q ≠ 0)
  | .str ⟨l⟩ => !l.isEmpty
  | .arr l => !l.isEmpty
  | .obj l => !l.isEmpty

/-- Python semantics of `x[0]` on a value decoded from JSON: first
element of a list, first character of a string, `KeyError` on a dict
(JSON objects only have string keys, so the int key `0` is absent),
`TypeError` on anything not subscriptable. -/
def Json.subscript0 : Json → Except PyExc Json
  | .arr [] => .error .indexError
  | .arr (x :: _) => .ok x
  | .str ⟨[]⟩ => .error .indexError
  | .str ⟨c :: _⟩ => .ok (.str ⟨[c]⟩)
  | .obj _ => .error .keyError
  | .null => .error .typeError
  | .bool _ => .error .typeError
  | .num _ => .error .typeError

/-- Embeds src/main/utils.py lines 55-61: `token_ids[0] if token_ids
else ""` under `except (JSONDecodeError, IndexError, TypeError)`.
A `KeyError` escapes the handler, giving `.error`. -/
def get_yes_token_id (parsed : Option Json) : Except PyExc Json :=
  match parsed with
  | none => .ok (.str "")
  | some j =>
    if j.truthy then
      match j.subscript0 with
      | .ok v => .ok v
      | .error .indexError => .ok (.str "")
      | .error .typeError => .ok (.str "")
      | .error .keyError => .error .keyError
    else .ok (.str "")

/-! ## Claim C3 -/

/-- C3: `get_day_price_change` returns exactly 0.0 on a history of fewer
than two buckets; otherwise it computes the preserved formula
`end_price − start_price * 100` from the first and the second-to-last
bucket; on prices `[1.0, 1.2, 1.5]` the result is `1.2 − 100.0`; the
last bucket is never used. -/
theorem C3_price_change_formula :
    (∀ hist : List ℚ, hist.length < 2 → get_day_price_change_hist hist = 0)
  ∧ (∀ hist : List ℚ, 2 ≤ hist.length →
      get_day_price_change_hist hist
        = hist.getD (hist.length - 2) 0 - hist.getD 0 0 * 100)
  ∧ get_day_price_change_hist [1, 6/5, 3/2] = 6/5 - 100
  ∧ (∀ (l : List ℚ) (a b : ℚ), l ≠ [] →
      get_day_price_change_hist (l ++ [a]) = get_day_price_change_hist (l ++ [b])) := by
  refine ⟨?_, ?_, ?_, ?_⟩
  · intro hist h
    simp [get_day_price_change_hist, if_pos h]
  · intro hist h
    rw [get_day_price_change_hist, if_neg (by omega)]
  · norm_num [get_day_price_change_hist]
  · intro l a b hl
    have hlen : 1 ≤ l.length := List.length_pos.mpr hl
    have hLa : (l ++ [a]).length = l.length + 1 := by simp
    have hLb : (l ++ [b]).length = l.length + 1 := by simp
    rw [get_day_price_change_hist, get_day_price_change_hist, hLa, hLb,
        if_neg (by omega), if_neg (by omega)]
    have hidx : l.length + 1 - 2 < l.length := by omega
    rw [List.getD_append _ _ _ _ hidx, List.getD_append _ _ _ _ hidx,
        List.getD_append _ _ _ _ (by omega : 0 < l.length),
        List.getD_append _ _ _ _ (by omega : 0 < l.length)]

/-- Witness for C3 at concrete inputs. -/
theorem C3_price_change_formula_witness :
    get_day_price_change_hist [(1 : ℚ)] = 0
  ∧ get_day_price_change_hist ([(1 : ℚ), 6/5] ++ [9])
      = get_day_price_change_hist ([(1 : ℚ), 6/5] ++ [7]) :=
  ⟨C3_price_change_formula.1 [(1 : ℚ)] (by norm_num),
   C3_price_change_formula.2.2.2 [(1 : ℚ), 6/5] 9 7 (by simp)⟩

/-! ## Claim C6 -/

/-- C6 counterexample: the string input `{"a": 1}` parses to a truthy
JSON object; `token_ids[0]` subscripts a dict with the int key 0,
raising a `KeyError` that the `except` clause does not catch — the
function raises instead of returning `''`. -/
theorem C6_obj_input_raises_cex :
    get_yes_token_id (some (Json.obj [("a", Json.num 1)]))
      = Except.error PyExc.keyError := rfl

/-- C6 amended: on a parsed nonempty JSON list the first element is
returned; a `KeyError` escapes exactly on a nonempty JSON object; a
nonempty JSON string yields its first character; every other input
(decode failure, falsy value, non-subscriptable truthy value) yields
`''` — so the function can raise, and can return a non-list member. -/
theorem C6_token_id_cases (parsed : Option Json) :
    (∀ x xs, parsed = some (Json.arr (x :: xs)) →
      get_yes_token_id parsed = Except.ok x)
  ∧ (get_yes_token_id parsed = Except.error PyExc.keyError ↔
      ∃ f fs, parsed = some (Json.obj (f :: fs)))
  ∧ (∀ c cs, parsed = some (Json.str (String.mk (c :: cs))) →
      get_yes_token_id parsed = Except.ok (Json.str (String.mk [c])))
  ∧ ((∀ x xs, parsed ≠ some (Json.arr (x :: xs))) →
     (∀ f fs, parsed ≠ some (Json.obj (f :: fs))) →
     (∀ c cs, parsed ≠ some (Json.str (String.mk (c :: cs)))) →
      get_yes_token_id parsed = Except.ok (Json.str "")) := by
  refine ⟨?_, ⟨?_, ?_⟩, ?_, ?_⟩
  · rintro x xs rfl
    rfl
  · intro h
    match parsed with
    | none => simp [get_yes_token_id] at h
    | some Json.null => simp [get_yes_token_id, Json.truthy] at h
    | some (Json.bool b) =>
      cases b <;> simp [get_yes_token_id, Json.truthy, Json.subscript0] at h
    | some (Json.num q) =>
      by_cases hq : q = 0 <;>
        simp [get_yes_token_id, Json.truthy, Json.subscript0, hq] at h
    | some (Json.str ⟨[]⟩) => simp [get_yes_token_id, Json.truthy] at h
    | some (Json.str ⟨c :: cs⟩) =>
      simp [get_yes_token_id, Json.truthy, Json.subscript0] at h
    | some (Json.arr []) => simp [get_yes_token_id, Json.truthy] at h
    | some (Json.arr (x :: xs)) =>
      simp [get_yes_token_id, Json.truthy, Json.subscript0] at h
    | some (Json.obj []) => simp [get_yes_token_id, Json.truthy] at h
    | some (Json.obj (f :: fs)) => exact ⟨f, fs, rfl⟩
  · rintro ⟨f, fs, rfl⟩
    rfl
  · rintro c cs rfl
    rfl
  · intro h1 h2 h3
    match parsed with
    | none => rfl
    | some Json.null => rfl
    | some (Json.bool b) => cases b <;> rfl
    | some (Json.num q) =>
      by_cases hq : q = 0 <;>
        simp [get_yes_token_id, Json.truthy, Json.subscript0, hq]
    | some (Json.str ⟨[]⟩) => rfl
    | some (Json.str ⟨c :: cs⟩) => exact absurd rfl (h3 c cs)
    | some (Json.arr []) => rfl
    | some (Json.arr (x :: xs)) => exact absurd rfl (h1 x xs)
    | some (Json.obj []) => rfl
    | some (Json.obj (f :: fs)) => exact absurd rfl (h2 f fs)

/-- Witness for C6 at a concrete parsed list. -/
theorem C6_token_id_cases_witness :
    get_yes_token_id (some (Json.arr [Json.str "tok"])) = Except.ok (Json.str "tok") :=
  (C6_token_id_cases (some (Json.arr [Json.str "tok"]))).1 (Json.str "tok") [] rfl

/-! ## src/main/scraper.py : filter_markets_by_date

`datetime.fromisoformat` is external; it enters as a parameter
`parse : String → Option ℤ` (timestamps as integers, `none` = the
`ValueError`/`TypeError` it raises on malformed input).  A missing
`"createdAt"` key raises `KeyError` inside the same `try`, caught by
`except Exception` → the record is skipped, identical to a parse
failure.  `if closed_str:` is Python truthiness: `None` and `''` both
skip the closed-time check. -/

/-- One iteration of the loop of src/main/scraper.py lines 105-124:
`true` iff the market reaches `filtered.append(m)`. -/
def keepMarket (parse : String → Option ℤ) (start_date end_date : ℤ) (m : Market) : Bool :=
  match m.createdAt with
  | none => false
  | some s =>
    match parse s with
    | none => false
    | some created =>
      if end_date < created then false
      else
        match m.closedTime with
        | none => true
        | some cs =>
          if cs = "" then true
          else
            match parse cs with
            | none => true
            | some closed => !decide (closed < start_date)

/-- Embeds `filter_markets_by_date` (the `filtered` list it builds). -/
def filter_markets_by_date (parse : String → Option ℤ) (all_markets_data : List Market)
    (start_date end_date : ℤ) : List Market :=
  all_markets_data.filter (keepMarket parse start_date end_date)

/-- The date-window membership rule as the spec words it: parsed
`createdAt ≤ end`, and `closedTime` absent, or unparseable, or
`≥ start`. -/
def inDateWindowSpec (parse : String → Option ℤ) (start_date end_date : ℤ) (m : Market) : Prop :=
  (∃ s c, m.createdAt = some s ∧ parse s = some c ∧ c ≤ end_date)
  ∧ (∀ s cl, m.closedTime = some s → parse s = some cl → start_date ≤ cl)

/-! ## Claim C5 -/

/-- C5: the date-window filter returns exactly the markets whose parsed
`createdAt` is ≤ end and whose `closedTime` is absent or ≥ start;
no `closedTime` never excludes, unparseable `createdAt` excludes,
unparseable `closedTime` is treated as absent.  (The hypothesis
records that `datetime.fromisoformat` rejects the empty string, which
Python truthiness short-circuits before parsing.) -/
theorem C5_date_window_filter (parse : String → Option ℤ) (start_date end_date : ℤ)
    (ms : List Market) (hparse : parse "" = none) :
    ∀ m, m ∈ filter_markets_by_date parse ms start_date end_date ↔
      m ∈ ms ∧ inDateWindowSpec parse start_date end_date m := by
  intro m
  rw [filter_markets_by_date, List.mem_filter]
  refine and_congr_right fun _ => ?_
  obtain ⟨cid, q, ca, ct, tok, ev⟩ := m
  cases ca with
  | none => simp [keepMarket, inDateWindowSpec]
  | some s =>
    cases hp : parse s with
    | none => simp [keepMarket, inDateWindowSpec, hp]
    | some created =>
      by_cases hlt : end_date < created
      · simp only [keepMarket, inDateWindowSpec, hp, if_pos hlt]
        simp only [Bool.false_eq_true, false_iff, not_and, not_forall]
        rintro ⟨s1, c, hs1, hc, hle⟩
        rw [Option.some_inj] at hs1
        subst hs1
        rw [hp] at hc
        rw [Option.some_inj] at hc
        omega
      · cases ct with
        | none =>
          simp only [keepMarket, inDateWindowSpec, hp, if_neg hlt]
          simp only [true_iff, Option.some.injEq, reduceCtorEq]
          refine ⟨⟨s, created, rfl, hp, by omega⟩, ?_⟩
          intro s1 cl h1
          exact h1.elim
        | some cs =>
          by_cases hempty : cs = ""
          · subst hempty
            simp only [keepMarket, inDateWindowSpec, hp, if_neg hlt, if_pos rfl]
            constructor
            · intro _
              refine ⟨⟨s, created, rfl, hp, by omega⟩, ?_⟩
              intro s1 cl hs1 hcl
              rw [Option.some_inj] at hs1
              subst hs1
              rw [hparse] at hcl
              exact absurd hcl (by simp)
            · intro _
              trivial
          · cases hpc : parse cs with
            | none =>
              simp only [keepMarket, inDateWindowSpec, hp, if_neg hlt, if_neg hempty, hpc]
              constructor
              · intro _
                refine ⟨⟨s, created, rfl, hp, by omega⟩, ?_⟩
                intro s1 cl hs1 hcl
                rw [Option.some_inj] at hs1
                subst hs1
                rw [hpc] at hcl
                exact absurd hcl (by simp)
              · intro _
                trivial
            | some closed =>
              simp only [keepMarket, inDateWindowSpec, hp, if_neg hlt, if_neg hempty, hpc]
              constructor
              · intro h
                refine ⟨⟨s, created, rfl, hp, by omega⟩, ?_⟩
                intro s1 cl hs1 hcl
                rw [Option.some_inj] at hs1
                subst hs1
                rw [hpc] at hcl
                rw [Option.some_inj] at hcl
                subst hcl
                simpa using h
              · rintro ⟨-, hcl⟩
                have := hcl cs closed rfl hpc
                simpa using this

/-- Witness for C5: a concrete parse table and market. -/
theorem C5_date_window_filter_witness :
    (⟨"c1", "q", some "d1", none, none, []⟩ : Market) ∈
      filter_markets_by_date (fun s => if s = "d1" then some 5 else none)
        [⟨"c1", "q", some "d1", none, none, []⟩] 0 10 :=
  (C5_date_window_filter (fun s => if s = "d1" then some 5 else none) 0 10
      [⟨"c1", "q", some "d1", none, none, []⟩] (by simp)
      ⟨"c1", "q", some "d1", none, none, []⟩).mpr
    ⟨by simp, ⟨"d1", 5, rfl, by simp, by norm_num⟩, by simp⟩

/-! ## Retry loops (src/main/scraper.py lines 240-257,
src/main/utils.py lines 64-105)

HTTP requests are external: each attempt's outcome enters as a
function of the attempt index.  The embeddings additionally report how
many attempts were made and the list of sleep durations, so the retry
contract (`MAX_RETRIES`, `RETRY_DELAY`) is observable. -/

def MAX_RETRIES : ℕ := 3

def RETRY_DELAY : ℕ := 1

/-- Result of one run of a retry loop: the returned value, the number
of attempts made, and the sleeps (in time units) taken between them. -/
structure RetryTrace (α : Type) where
  value : α
  attempts : ℕ
  sleeps : List ℕ
deriving Repr, DecidableEq

/-- The loop `for attempt in range(3)` of `get_day_price_change`:
`outcomes i = some hist` is a successful response (its history), `none`
a raised request exception.  On failure with `attempt < 2` it sleeps
`1` and retries; the last failure returns `0.0`. -/
def gdpcLoop (outcomes : ℕ → Option (List ℚ)) : ℕ → ℕ → RetryTrace ℚ
  | _, 0 => ⟨0, 0, []⟩
  | attempt, r + 1 =>
    match outcomes attempt with
    | some hist => ⟨get_day_price_change_hist hist, 1, []⟩
    | none =>
      if r = 0 then ⟨0, 1, []⟩
      else
        let t := gdpcLoop outcomes (attempt + 1) r
        ⟨t.value, t.attempts + 1, RETRY_DELAY :: t.sleeps⟩

/-- Embeds the retry behaviour of `get_day_price_change`. -/
def get_day_price_change_retry (outcomes : ℕ → Option (List ℚ)) : RetryTrace ℚ :=
  gdpcLoop outcomes 0 MAX_RETRIES

/-- One attempt's outcome inside `get_block_number`. -/
inductive BlockResp where
  | transientError : BlockResp
  | rateLimited : BlockResp
  | ok (n : ℤ) : BlockResp
  | apiError : BlockResp
deriving Repr, DecidableEq

/-- The loop `for attempt in range(1, MAX_RETRIES + 1)` of
`get_block_number`: `status == "1"` returns the block, a rate-limit
message raises `RequestException` (retried like a transient error),
any other API error returns `None` immediately. -/
def gbnLoop (outcomes : ℕ → BlockResp) : ℕ → ℕ → RetryTrace (Option ℤ)
  | _, 0 => ⟨none, 0, []⟩
  | attempt, r + 1 =>
    match outcomes attempt with
    | .ok n => ⟨some n, 1, []⟩
    | .apiError => ⟨none, 1, []⟩
    | _ =>
      if r = 0 then ⟨none, 1, []⟩
      else
        let t := gbnLoop outcomes (attempt + 1) r
        ⟨t.value, t.attempts + 1, RETRY_DELAY :: t.sleeps⟩

/-- Embeds `get_block_number`: a missing `ETHERSCAN_API_KEY` returns
`None` before any request. -/
def get_block_number (hasApiKey : Bool) (outcomes : ℕ → BlockResp) : RetryTrace (Option ℤ) :=
  if hasApiKey then gbnLoop outcomes 1 MAX_RETRIES else ⟨none, 0, []⟩

theorem gdpcLoop_attempts_le (outcomes : ℕ → Option (List ℚ)) :
    ∀ r a, (gdpcLoop outcomes a r).attempts ≤ r := by
  intro r
  induction r with
  | zero => intro a; simp [gdpcLoop]
  | succ n ih =>
    intro a
    rw [gdpcLoop]
    match outcomes a with
    | some hist => simp
    | none =>
      by_cases hr : n = 0
      · simp [hr]
      · simpa [hr] using ih (a + 1)

theorem gdpcLoop_sleeps (outcomes : ℕ → Option (List ℚ)) :
    ∀ r a d, d ∈ (gdpcLoop outcomes a r).sleeps → d = RETRY_DELAY := by
  intro r
  induction r with
  | zero => intro a d h; simp [gdpcLoop] at h
  | succ n ih =>
    intro a d h
    rw [gdpcLoop] at h
    match houtcome : outcomes a with
    | some hist => rw [houtcome] at h; simp at h
    | none =>
      rw [houtcome] at h
      by_cases hr : n = 0
      · simp [hr] at h
      · simp only [if_neg hr, List.mem_cons] at h
        rcases h with h | h
        · exact h
        · exact ih (a + 1) d h

theorem gbnLoop_attempts_le (outcomes : ℕ → BlockResp) :
    ∀ r a, (gbnLoop outcomes a r).attempts ≤ r := by
  intro r
  induction r with
  | zero => intro a; simp [gbnLoop]
  | succ n ih =>
    intro a
    rw [gbnLoop]
    match outcomes a with
    | .ok m => simp
    | .apiError => simp
    | .transientError =>
      by_cases hr : n = 0
      · simp [hr]
      · simpa [hr] using ih (a + 1)
    | .rateLimited =>
      by_cases hr : n = 0
      · simp [hr]
      · simpa [hr] using ih (a + 1)

theorem gbnLoop_sleeps (outcomes : ℕ → BlockResp) :
    ∀ r a d, d ∈ (gbnLoop outcomes a r).sleeps → d = RETRY_DELAY := by
  intro r
  induction r with
  | zero => intro a d h; simp [gbnLoop] at h
  | succ n ih =>
    intro a d h
    rw [gbnLoop] at h
    match houtcome : outcomes a with
    | .ok m => rw [houtcome] at h; simp at h
    | .apiError => rw [houtcome] at h; simp at h
    | .transientError =>
      rw [houtcome] at h
      by_cases hr : n = 0
      · simp [hr] at h
      · simp only [if_neg hr, List.mem_cons] at h
        rcases h with h | h
        · exact h
        · exact ih (a + 1) d h
    | .rateLimited =>
      rw [houtcome] at h
      by_cases hr : n = 0
      · simp [hr] at h
      · simp only [if_neg hr, List.mem_cons] at h
        rcases h with h | h
        · exact h
        · exact ih (a + 1) d h

/-! ## Claim C7 -/

/-- C7: both retry loops make at most `MAX_RETRIES = 3` attempts, every
inter-attempt delay is `RETRY_DELAY = 1`, and exhausting all retries
yields the degraded value (`0.0` for the price history, `None` for the
block number) rather than an error. -/
theorem C7_retry_contract :
    MAX_RETRIES = 3 ∧ RETRY_DELAY = 1
  ∧ (∀ outcomes : ℕ → Option (List ℚ),
      (get_day_price_change_retry outcomes).attempts ≤ MAX_RETRIES)
  ∧ (∀ outcomes : ℕ → Option (List ℚ),
      ∀ d ∈ (get_day_price_change_retry outcomes).sleeps, d = RETRY_DELAY)
  ∧ (∀ outcomes : ℕ → Option (List ℚ), (∀ i, outcomes i = none) →
      get_day_price_change_retry outcomes = ⟨0, 3, [1, 1]⟩)
  ∧ (∀ (k : Bool) (outcomes : ℕ → BlockResp),
      (get_block_number k outcomes).attempts ≤ MAX_RETRIES)
  ∧ (∀ (k : Bool) (outcomes : ℕ → BlockResp),
      ∀ d ∈ (get_block_number k outcomes).sleeps, d = RETRY_DELAY)
  ∧ (∀ outcomes : ℕ → BlockResp,
      (∀ i, outcomes i = BlockResp.transientError ∨ outcomes i = BlockResp.rateLimited) →
      get_block_number true outcomes = ⟨none, 3, [1, 1]⟩) := by
  refine ⟨rfl, rfl, ?_, ?_, ?_, ?_, ?_, ?_⟩
  · intro outcomes
    exact gdpcLoop_attempts_le outcomes MAX_RETRIES 0
  · intro outcomes
    exact gdpcLoop_sleeps outcomes MAX_RETRIES 0
  · intro outcomes hfail
    rw [get_day_price_change_retry]
    show gdpcLoop outcomes 0 3 = _
    rw [gdpcLoop, hfail 0]
    simp only [if_neg (by omega : ¬(2 : ℕ) = 0)]
    rw [gdpcLoop, hfail 1]
    simp only [if_neg (by omega : ¬(1 : ℕ) = 0)]
    rw [gdpcLoop, hfail 2]
    rfl
  · intro k outcomes
    cases k with
    | false => simp [get_block_number]
    | true => simpa [get_block_number] using gbnLoop_attempts_le outcomes MAX_RETRIES 1
  · intro k outcomes
    cases k with
    | false => simp [get_block_number]
    | true =>
      intro d h
      exact gbnLoop_sleeps outcomes MAX_RETRIES 1 d (by simpa [get_block_number] using h)
  · intro outcomes hfail
    rw [get_block_number]
    simp only [if_pos rfl]
    show gbnLoop outcomes 1 3 = _
    rw [gbnLoop]
    rcases hfail 1 with h1 | h1 <;>
      rw [h1] <;>
      simp only [if_neg (by omega : ¬(2 : ℕ) = 0)] <;>
      rw [gbnLoop] <;>
      rcases hfail 2 with h2 | h2 <;>
        rw [h2] <;>
        simp only [if_neg (by omega : ¬(1 : ℕ) = 0)] <;>
        rw [gbnLoop] <;>
        rcases hfail 3 with h3 | h3 <;>
          rw [h3] <;>
          rfl

/-- Witness for C7: a run in which every attempt fails. -/
theorem C7_retry_contract_witness :
    get_day_price_change_retry (fun _ => none) = ⟨0, 3, [1, 1]⟩
  ∧ get_block_number true (fun _ => BlockResp.transientError) = ⟨none, 3, [1, 1]⟩ :=
  ⟨C7_retry_contract.2.2.2.2.1 (fun _ => none) (fun _ => rfl),
   C7_retry_contract.2.2.2.2.2.2.2 (fun _ => BlockResp.transientError) (fun _ => Or.inl rfl)⟩

/-! ## src/scripts/hourly-update.py

The snapshot file contents enter as a list of `Snap` records
(`priceChange` may be absent on a member never updated), the price
endpoint as `change : String → ℚ`. -/

structure Snap where
  conditionId : String
  tokenId : Option String
  question : String
  priceChange : Option ℚ
deriving Repr, DecidableEq

/-- Python truthiness of the `tokenId` field (`None` and `''` are
falsy). -/
def snapTokenTruthy (m : Snap) : Option String :=
  match m.tokenId with
  | none => none
  | some t => if t = "" then none else some t

/-- The member loop of src/scripts/hourly-update.py lines 52-66:
returns the rebuilt `updated_top10` and `total_abs`.  A member with no
usable `tokenId` is appended unchanged and contributes nothing to
`total_abs`; a member with one gets `priceChange = round(change, 3)`
and contributes `abs(change)`. -/
def hourlyLoop (change : String → ℚ) : List Snap → List Snap × ℚ
  | [] => ([], 0)
  | m :: rest =>
    match snapTokenTruthy m with
    | none =>
      let t := hourlyLoop change rest
      (m :: t.1, t.2)
    | some tok =>
      let c := change tok
      let t := hourlyLoop change rest
      ({ m with priceChange := some (round3 c) } :: t.1, |c| + t.2)

/-- Embeds lines 47-71 of src/scripts/hourly-update.py: `none` models
the early `return` on an empty snapshot (the score-series file is not
touched); otherwise the average `round(total_abs / len(updated_top10),
3)` is computed. -/
def hourlyAvg (top10 : List Snap) (change : String → ℚ) : Option ℚ :=
  if top10.isEmpty then none
  else
    let t := hourlyLoop change top10
    some (round3 (t.2 / (t.1.length : ℚ)))

theorem hourlyLoop_length (change : String → ℚ) :
    ∀ top10 : List Snap, (hourlyLoop change top10).1.length = top10.length := by
  intro top10
  induction top10 with
  | nil => rfl
  | cons m rest ih =>
    rw [hourlyLoop]
    match snapTokenTruthy m with
    | none => simpa using ih
    | some tok => simpa using ih

/-! ## Claim C10 -/

/-- C10: an empty top-10 snapshot makes the hourly update return before
any average is computed (`none`: the persisted score series is left
untouched); on a non-empty snapshot the divisor `len(updated_top10)`
equals the snapshot length and is a positive integer, so the division
is never by zero. -/
theorem C10_no_division_by_zero (top10 : List Snap) (change : String → ℚ) :
    (top10 = [] → hourlyAvg top10 change = none)
  ∧ (top10 ≠ [] →
      (hourlyLoop change top10).1.length = top10.length
      ∧ 0 < (hourlyLoop change top10).1.length
      ∧ hourlyAvg top10 change
          = some (round3 ((hourlyLoop change top10).2
              / ((hourlyLoop change top10).1.length : ℚ)))) := by
  constructor
  · rintro rfl
    rfl
  · intro hne
    refine ⟨hourlyLoop_length change top10, ?_, ?_⟩
    · rw [hourlyLoop_length change top10]
      exact List.length_pos.mpr hne
    · rw [hourlyAvg, if_neg (by simpa using hne)]

/-- Witness for C10: the empty snapshot and a one-member snapshot. -/
theorem C10_no_division_by_zero_witness :
    hourlyAvg [] (fun _ => 2) = none
  ∧ 0 < (hourlyLoop (fun _ => 2) [⟨"c", some "t", "q", none⟩]).1.length :=
  ⟨(C10_no_division_by_zero [] (fun _ => 2)).1 rfl,
   ((C10_no_division_by_zero [⟨"c", some "t", "q", none⟩] (fun _ => 2)).2 (by simp)).2.1⟩

/-! ## Score-series update (src/scripts/hourly-update.py lines 96-104)

A `ScoreEntry` is one row of `data/daily_scores.json`; an empty
`events` list stands for an absent `"events"` key. -/

structure ScoreEntry where
  time : String
  value : ℚ
  events : List (String × ℚ)
deriving Repr, DecidableEq

/-- Embeds `if series and series[-1]["time"] == day_str: series[-1] =
today_entry  else: series.append(today_entry)`.  The Python guard
(`series` truthy and its last element's `"time"` equal to today) is
exactly `series.getLast?.map ScoreEntry.time = some day_str`. -/
def updateSeries (series : List ScoreEntry) (day_str : String)
    (today_entry : ScoreEntry) : List ScoreEntry :=
  if series.getLast?.map ScoreEntry.time = some day_str
  then series.dropLast ++ [today_entry]
  else series ++ [today_entry]

/-! ## Claim C8 -/

/-- C8: if the series is non-empty and its last entry's date is today,
that last entry is replaced by the new entry, else the new entry is
appended; in both cases every entry before the last is unchanged and
in its original position. -/
theorem C8_series_update (series : List ScoreEntry) (day_str : String)
    (today_entry : ScoreEntry) :
    ((series.getLast?.map ScoreEntry.time = some day_str) →
      updateSeries series day_str today_entry = series.dropLast ++ [today_entry])
  ∧ ((series.getLast?.map ScoreEntry.time ≠ some day_str) →
      updateSeries series day_str today_entry = series ++ [today_entry])
  ∧ (updateSeries series day_str today_entry).take (series.length - 1)
      = series.take (series.length - 1)
  ∧ (updateSeries series day_str today_entry).getLast? = some today_entry := by
  refine ⟨?_, ?_, ?_, ?_⟩
  · intro h
    rw [updateSeries, if_pos h]
  · intro h
    rw [updateSeries, if_neg h]
  · rw [updateSeries]
    by_cases h : series.getLast?.map ScoreEntry.time = some day_str
    · rw [if_pos h]
      rw [List.take_append_of_le_length (by simp [List.length_dropLast])]
      rw [List.dropLast_eq_take, List.take_take]
      simp
    · rw [if_neg h]
      exact List.take_append_of_le_length (by omega)
  · by_cases h : series.getLast?.map ScoreEntry.time = some day_str <;>
      simp [updateSeries, h]

/-- Witness for C8: a two-entry series whose last entry is today. -/
theorem C8_series_update_witness :
    updateSeries [⟨"2025-07-01", 1, []⟩, ⟨"2025-07-02", 2, []⟩] "2025-07-02" ⟨"2025-07-02", 5, []⟩
      = [⟨"2025-07-01", 1, []⟩, ⟨"2025-07-02", 5, []⟩] := by
  have h := (C8_series_update [⟨"2025-07-01", 1, []⟩, ⟨"2025-07-02", 2, []⟩]
      "2025-07-02" ⟨"2025-07-02", 5, []⟩).1 (by rfl)
  simpa using h

/-! ## Day aggregation (src/scripts/backfill.py and src/main/backfill.py)

`process_single_day` composes the filtered catalog, the ranker output
and the price endpoint; the latter two are external here and enter as
`top` (the ranked entries) and `change` (price change per token id). -/

/-- Python truthiness of `m.get("tokenId")`. -/
def tokenOf (m : Market) : Option String :=
  match m.tokenId with
  | none => none
  | some t => if t = "" then none else some t

/-- `{m["conditionId"]: m for m in day_markets if m.get("tokenId")}` as
a lookup: later duplicates overwrite earlier ones, so the reversed
list is searched. -/
def idMapGet (day_markets : List Market) (cond_id : String) : Option Market :=
  ((day_markets.filter (fun m => (tokenOf m).isSome)).reverse).find?
    (fun m => m.conditionId = cond_id)

/-- One record of `top10_with_changes` in src/scripts/backfill.py. -/
structure Top10Member where
  conditionId : String
  tokenId : String
  question : String
  priceChange : ℚ
deriving Repr, DecidableEq

/-- The member loop of src/scripts/backfill.py lines 40-55: ranked
entries whose id misses `id_map` are skipped (`continue`), the rest get
`priceChange = round(change, 3)`. -/
def top10WithChanges (top : List OIEntry) (day_markets : List Market)
    (change : String → ℚ) : List Top10Member :=
  top.filterMap (fun e =>
    (idMapGet day_markets e.id).bind (fun m =>
      (tokenOf m).map (fun tok =>
        ⟨e.id, tok, m.question, round3 (change tok)⟩)))

/-- The day value of src/scripts/backfill.py `process_single_day`
(lines 36-57): `0.0` on an empty ranking, else
`round(sum(abs(m["priceChange"]))/len(top10_with_changes), 3)` with the
`if top10_with_changes else 0.0` fallback. -/
def process_single_day_value (top : List OIEntry) (day_markets : List Market)
    (change : String → ℚ) : ℚ :=
  if top.isEmpty then 0
  else
    let tc := top10WithChanges top day_markets change
    let avg : ℚ := if tc.isEmpty then 0
      else (tc.map (fun m => |m.priceChange|)).sum / (tc.length : ℚ)
    round3 avg

/-- The day value of src/main/backfill.py `process_single_day`
(lines 36-46): the same structure, but the per-member changes are
summed *signed* (no `abs`) and unrounded. -/
def process_single_day_value_main (top : List OIEntry) (day_markets : List Market)
    (change : String → ℚ) : ℚ :=
  if top.isEmpty then 0
  else
    let changes := top.filterMap (fun e => ((idMapGet day_markets e.id).bind tokenOf).map change)
    round3 (if changes.isEmpty then 0 else changes.sum / (changes.length : ℚ))

/-- The absolute (rounded) price changes of exactly the ranked members
that resolve a token id — the claim's numerator list; its length is
the claim's denominator. -/
def resolvedAbsChanges (top : List OIEntry) (day_markets : List Market)
    (change : String → ℚ) : List ℚ :=
  top.filterMap (fun e =>
    (idMapGet day_markets e.id).bind (fun m =>
      (tokenOf m).map (fun tok => |round3 (change tok)|)))

theorem resolvedAbsChanges_eq_map (top : List OIEntry) (day_markets : List Market)
    (change : String → ℚ) :
    resolvedAbsChanges top day_markets change
      = (top10WithChanges top day_markets change).map (fun m => |m.priceChange|) := by
  rw [resolvedAbsChanges, top10WithChanges, List.map_filterMap]
  refine List.filterMap_congr fun e _ => ?_
  cases hm : idMapGet day_markets e.id with
  | none => rfl
  | some m =>
    simp only [Option.some_bind]
    cases htok : tokenOf m with
    | none => rfl
    | some tok => rfl

theorem round3_zero : round3 0 = 0 := by
  rw [round3]
  norm_num

/-! ## Claim C1 -/

/-- C1 counterexample: in src/main/backfill.py the day value is the
*signed* mean — a single resolved member with price change −4 makes the
day's score value −4, which is negative, contradicting the claim that
every day's score value is a non-negative mean of absolute changes. -/
theorem C1_signed_mean_cex :
    process_single_day_value_main [⟨"c", 1⟩]
      [⟨"c", "q", none, none, some "t", []⟩] (fun _ => -4) = -4
  ∧ process_single_day_value_main [⟨"c", 1⟩]
      [⟨"c", "q", none, none, some "t", []⟩] (fun _ => -4) < 0 := by
  have h1 : idMapGet [⟨"c", "q", none, none, some "t", []⟩] "c"
      = some ⟨"c", "q", none, none, some "t", []⟩ := by decide
  have hch : ([⟨"c", (1 : ℚ)⟩] : List OIEntry).filterMap
      (fun e => ((idMapGet [(⟨"c", "q", none, none, some "t", []⟩ : Market)] e.id).bind
        tokenOf).map (fun _ => (-4 : ℚ))) = [-4] := by
    simp [h1, tokenOf]
  have hval : process_single_day_value_main [⟨"c", 1⟩]
      [⟨"c", "q", none, none, some "t", []⟩] (fun _ => -4) = -4 := by
    rw [process_single_day_value_main]
    simp only [List.isEmpty_cons, Bool.false_eq_true, if_false, hch]
    norm_num
    rw [round3]
    rw [show ((-4 : ℚ) * 1000 + 1/2) = -7999/2 by norm_num]
    rw [show (⌊(-7999/2 : ℚ)⌋ : ℤ) = -4000 by rw [Int.floor_eq_iff] ; norm_num]
    norm_num
  exact ⟨hval, by rw [hval] ; norm_num⟩

/-- C1 amended: in the src/scripts/backfill.py aggregator the claim
holds — the day value is non-negative and is the (3-decimal rounded)
mean of the absolute (3-decimal rounded) price changes of exactly those
ranked members that resolve a token id; members lacking one are
excluded from both the numerator and the denominator, and an empty
top-10 or no resolved member yields 0.0.  (The src/main/backfill.py
variant instead averages signed changes, and the hourly script divides
by the full snapshot length.) -/
theorem C1_day_value_mean (top : List OIEntry) (day_markets : List Market)
    (change : String → ℚ) :
    0 ≤ process_single_day_value top day_markets change
  ∧ (resolvedAbsChanges top day_markets change = [] →
      process_single_day_value top day_markets change = 0)
  ∧ (resolvedAbsChanges top day_markets change ≠ [] →
      process_single_day_value top day_markets change
        = round3 ((resolvedAbsChanges top day_markets change).sum
            / ((resolvedAbsChanges top day_markets change).length : ℚ))) := by
  have hmap := resolvedAbsChanges_eq_map top day_markets change
  refine ⟨?_, ?_, ?_⟩
  · rw [process_single_day_value]
    by_cases htop : top.isEmpty
    · rw [if_pos htop]
    · rw [if_neg htop]
      by_cases htc : (top10WithChanges top day_markets change).isEmpty
      · simp only [htc, if_pos]
        simpa using round3_nonneg le_rfl
      · simp only [htc, if_neg]
        apply round3_nonneg
        apply div_nonneg
        · apply List.sum_nonneg
          intro x hx
          rw [List.mem_map] at hx
          obtain ⟨m, -, rfl⟩ := hx
          exact abs_nonneg _
        · positivity
  · intro hres
    rw [hmap, List.map_eq_nil_iff] at hres
    rw [process_single_day_value]
    by_cases htop : top.isEmpty
    · rw [if_pos htop]
    · rw [if_neg htop]
      simp only [hres, List.isEmpty_nil, if_pos]
      exact round3_zero
  · intro hres
    have htc : ¬(top10WithChanges top day_markets change).isEmpty := by
      rw [hmap] at hres
      simpa [List.isEmpty_iff] using hres
    have htop : ¬top.isEmpty := by
      intro h
      rw [List.isEmpty_iff] at h
      apply htc
      rw [h]
      rfl
    rw [process_single_day_value, if_neg htop]
    rw [hmap, List.length_map]
    simp only [Bool.not_eq_true] at htc
    simp [htc]

/-- Witness for C1 at a concrete day: one resolved member with change
−4 and one ranked entry lacking a token id. -/
theorem C1_day_value_mean_witness :
    process_single_day_value [⟨"c", 1⟩, ⟨"d", 1⟩]
        [⟨"c", "q", none, none, some "t", []⟩, ⟨"d", "q2", none, none, none, []⟩]
        (fun _ => -4)
      = round3 ((resolvedAbsChanges [⟨"c", 1⟩, ⟨"d", 1⟩]
          [⟨"c", "q", none, none, some "t", []⟩, ⟨"d", "q2", none, none, none, []⟩]
          (fun _ => -4)).sum
        / ((resolvedAbsChanges [⟨"c", 1⟩, ⟨"d", 1⟩]
          [⟨"c", "q", none, none, some "t", []⟩, ⟨"d", "q2", none, none, none, []⟩]
          (fun _ => -4)).length : ℚ)) :=
  (C1_day_value_mean [⟨"c", 1⟩, ⟨"d", 1⟩]
      [⟨"c", "q", none, none, some "t", []⟩, ⟨"d", "q2", none, none, none, []⟩]
      (fun _ => -4)).2.2 (by decide)

/-! ## Claim C4 -/

/-- The highlight-event derivation of src/scripts/backfill.py lines
94-108: only when `v > 8`, members with `abs(priceChange) > 10`, sorted
by `abs(priceChange)` descending (Python's stable sort with
`reverse=True`), each contributing `(question, signed change)`; an
empty list models the absent `"events"` key. -/
def highlight_events (v : ℚ) (top10 : List Top10Member) : List (String × ℚ) :=
  if 8 < v then
    ((top10.filter (fun m => decide (10 < |m.priceChange|))).mergeSort
        (fun a b => decide (|b.priceChange| ≤ |a.priceChange|))).map
      (fun m => (m.question, m.priceChange))
  else []

/-- C4: events are produced only when the day value strictly exceeds 8
(8 itself yields none); a member enters only when its absolute change
strictly exceeds 10; the list is exactly the qualifying members
(as a permutation), sorted descending by absolute change, each carrying
its question and *signed* change. -/
theorem C4_highlight_threshold (v : ℚ) (top10 : List Top10Member) :
    (v ≤ 8 → highlight_events v top10 = [])
  ∧ (8 < v →
      (highlight_events v top10).Perm
        ((top10.filter (fun m => decide (10 < |m.priceChange|))).map
          (fun m => (m.question, m.priceChange)))
      ∧ (highlight_events v top10).Pairwise (fun e1 e2 => |e2.2| ≤ |e1.2|)
      ∧ (∀ e ∈ highlight_events v top10,
          ∃ m ∈ top10, 10 < |m.priceChange| ∧ e = (m.question, m.priceChange))) := by
  constructor
  · intro h
    rw [highlight_events, if_neg (not_lt.mpr h)]
  · intro h
    rw [highlight_events, if_pos h]
    refine ⟨?_, ?_, ?_⟩
    · exact List.Perm.map _ (List.mergeSort_perm _ _)
    · rw [List.pairwise_map]
      have hs := @List.sorted_mergeSort Top10Member
        (fun a b : Top10Member => decide (|b.priceChange| ≤ |a.priceChange|))
        (fun a b c hab hbc => by
          simp only [decide_eq_true_eq] at *
          exact le_trans hbc hab)
        (fun a b => by
          simp only [Bool.or_eq_true, decide_eq_true_eq]
          exact le_total _ _)
        (top10.filter (fun m => decide (10 < |m.priceChange|)))
      refine hs.imp ?_
      intro a b hab
      simpa using hab
    · intro e he
      rw [List.mem_map] at he
      obtain ⟨m, hm, rfl⟩ := he
      rw [List.mem_mergeSort, List.mem_filter] at hm
      exact ⟨m, hm.1, by simpa using hm.2, rfl⟩

/-- Witness for C4: value 9 with one qualifying and one non-qualifying
member, and the boundary day value exactly 8. -/
theorem C4_highlight_threshold_witness :
    highlight_events 8 [⟨"c", "t", "q", 20⟩] = []
  ∧ (highlight_events 9 [⟨"c", "t", "q", 20⟩, ⟨"d", "u", "r", 5⟩]).Perm
      (([⟨"c", "t", "q", 20⟩, ⟨"d", "u", "r", 5⟩] :
          List Top10Member).filter (fun m => decide (10 < |m.priceChange|)) |>.map
        (fun m => (m.question, m.priceChange))) :=
  ⟨(C4_highlight_threshold 8 [⟨"c", "t", "q", 20⟩]).1 le_rfl,
   ((C4_highlight_threshold 9 [⟨"c", "t", "q", 20⟩, ⟨"d", "u", "r", 5⟩]).2 (by norm_num)).1⟩

/-! ## src/main/scraper.py : get_ois

The GraphQL endpoint is external: the successive `fetch_batch` results
enter as `pages` (page `i` is the fetch at `skip = i * batch_size`;
past the end of the list the server is exhausted and returns `[]`).
`markets` is `Option` exactly as in the source (`None` disables both
the id filter and the event deduplication). -/

/-- `{m["conditionId"]: m for m in markets or [] if m.get("conditionId")}`
as a lookup (dict: later duplicates overwrite earlier ones). -/
def marketsById (markets : List Market) (cid : String) : Option Market :=
  ((markets.filter (fun m => decide (m.conditionId ≠ ""))).reverse).find?
    (fun m => m.conditionId = cid)

/-- `markets_by_id.get(r["id"], {}).get("event_ids", [])`. -/
def eventsOfId (markets : List Market) (i : String) : List String :=
  match marketsById markets i with
  | some m => m.event_ids
  | none => []

/-- The loop of `dedupe_shared_events` (src/main/scraper.py lines
190-197): `seen` is the running set of event ids of accepted rows. -/
def dedupeGo (markets : List Market) (seen : List String) : List OIEntry → List OIEntry
  | [] => []
  | r :: rest =>
    let ev := eventsOfId markets r.id
    if ev.isEmpty || !(ev.any (fun e => seen.contains e)) then
      r :: dedupeGo markets (seen ++ ev) rest
    else
      dedupeGo markets seen rest

/-- Embeds `dedupe_shared_events`: identity when `markets is None`. -/
def dedupe_shared_events (markets? : Option (List Market)) (rows : List OIEntry) :
    List OIEntry :=
  match markets? with
  | none => rows
  | some markets => dedupeGo markets [] rows

/-- Python truthiness of `top_n` and the `len(result) >= top_n` test. -/
def reachedTopN (top_n : Option ℕ) (result : List OIEntry) : Bool :=
  match top_n with
  | some n => if n = 0 then false else decide (n ≤ result.length)
  | none => false

/-- `result[:top_n] if top_n else result` (also the early
`return result[:top_n]`). -/
def finalizeResult (top_n : Option ℕ) (result : List OIEntry) : List OIEntry :=
  match top_n with
  | some n => if n = 0 then result else result.take n
  | none => result

/-- The inner `for r in dedupe_shared_events(batch)` loop of `get_ois`
(lines 210-214): skip rows whose id is already in `result`, append the
rest, and return (`true` flag) as soon as `top_n` is truthy and
reached. -/
def addRows (top_n : Option ℕ) : List OIEntry → List OIEntry → List OIEntry × Bool
  | [], result => (result, false)
  | r :: rest, result =>
    if result.all (fun x => decide (r.id ≠ x.id)) then
      let result2 := result ++ [r]
      if reachedTopN top_n result2 then (result2, true)
      else addRows top_n rest result2
    else
      addRows top_n rest result

/-- `batch_size = max(top_n or 100, 100)`. -/
def batchSizeOf (top_n : Option ℕ) : ℕ :=
  max (match top_n with | some n => if n = 0 then 100 else n | none => 100) 100

/-- The `while True` pagination loop of `get_ois` (lines 206-219).
Returns the final list and the number of fetches made.  An exhausted
`pages` list means the next fetch returns `[]` (the `if not batch:
break` path). -/
def getOisGo (markets? : Option (List Market)) (top_n : Option ℕ) (batch_size : ℕ) :
    List (List OIEntry) → List OIEntry → List OIEntry × ℕ
  | [], result => (finalizeResult top_n result, 1)
  | page :: rest, result =>
    if page.isEmpty then (finalizeResult top_n result, 1)
    else
      let step := addRows top_n (dedupe_shared_events markets? page) result
      if step.2 then (finalizeResult top_n step.1, 1)
      else if page.length < batch_size then (finalizeResult top_n step.1, 1)
      else
        let t := getOisGo markets? top_n batch_size rest step.1
        (t.1, t.2 + 1)

/-- Embeds `get_ois` over the supplied page sequence. -/
def get_ois (markets? : Option (List Market)) (top_n : Option ℕ)
    (pages : List (List OIEntry)) : List OIEntry × ℕ :=
  getOisGo markets? top_n (batchSizeOf top_n) pages []

/-- Replay of the accepted accumulator after a prefix of pages, with
no stop conditions (used to state where the pagination stood when it
decided to fetch another page). -/
def accAfter (markets? : Option (List Market)) (top_n : Option ℕ) :
    List (List OIEntry) → List OIEntry → List OIEntry
  | [], result => result
  | page :: rest, result =>
    accAfter markets? top_n rest (addRows top_n (dedupe_shared_events markets? page) result).1

theorem dedupeGo_sublist (mk : List Market) :
    ∀ (rows : List OIEntry) (seen : List String),
      (dedupeGo mk seen rows).Sublist rows := by
  intro rows
  induction rows with
  | nil => intro seen; simp [dedupeGo]
  | cons r rest ih =>
    intro seen
    rw [dedupeGo]
    by_cases h : (eventsOfId mk r.id).isEmpty
        || !((eventsOfId mk r.id).any (fun e => seen.contains e))
    · simp only [if_pos h]
      exact (ih _).cons₂ r
    · simp only [if_neg h]
      exact (ih seen).cons r

theorem dedupeGo_ev_not_seen (mk : List Market) :
    ∀ (rows : List OIEntry) (seen : List String) (r : OIEntry),
      r ∈ dedupeGo mk seen rows → ∀ e ∈ eventsOfId mk r.id, e ∉ seen := by
  intro rows
  induction rows with
  | nil => intro seen r h; simp [dedupeGo] at h
  | cons a rest ih =>
    intro seen r h e he hseen
    rw [dedupeGo] at h
    by_cases hc : (eventsOfId mk a.id).isEmpty
        || !((eventsOfId mk a.id).any (fun e => seen.contains e))
    · simp only [if_pos hc] at h
      rcases List.mem_cons.mp h with rfl | hmem
      · have hc2 := hc
        simp only [Bool.or_eq_true] at hc2
        rcases hc2 with h1 | h2
        · rw [List.isEmpty_iff] at h1
          rw [h1] at he
          simp at he
        · rw [Bool.not_eq_eq_eq_not, Bool.not_true, List.any_eq_false] at h2
          exact absurd (by simpa using hseen) (by simpa using h2 e he)
      · exact ih _ r hmem e he (by simp [hseen])
    · simp only [if_neg hc] at h
      exact ih seen r h e he hseen

theorem dedupeGo_pairwise (mk : List Market) :
    ∀ (rows : List OIEntry) (seen : List String),
      (dedupeGo mk seen rows).Pairwise
        (fun a b => ∀ e, e ∈ eventsOfId mk a.id → e ∉ eventsOfId mk b.id) := by
  intro rows
  induction rows with
  | nil => intro seen; simp [dedupeGo]
  | cons a rest ih =>
    intro seen
    rw [dedupeGo]
    by_cases hc : (eventsOfId mk a.id).isEmpty
        || !((eventsOfId mk a.id).any (fun e => seen.contains e))
    · simp only [if_pos hc]
      refine List.Pairwise.cons ?_ (ih _)
      intro b hb e hea heb
      have := dedupeGo_ev_not_seen mk rest _ b hb e heb
      simp only [List.mem_append] at this
      exact this (Or.inr hea)
    · simp only [if_neg hc]
      exact ih seen

theorem dedupeGo_eventless_mem (mk : List Market) :
    ∀ (rows : List OIEntry) (seen : List String) (r : OIEntry),
      r ∈ rows → eventsOfId mk r.id = [] → r ∈ dedupeGo mk seen rows := by
  intro rows
  induction rows with
  | nil => intro seen r h; simp at h
  | cons a rest ih =>
    intro seen r h hev
    rw [dedupeGo]
    rcases List.mem_cons.mp h with rfl | hmem
    · rw [if_pos (by simp [hev])]
      exact List.mem_cons_self _ _
    · by_cases hc : (eventsOfId mk a.id).isEmpty
          || !((eventsOfId mk a.id).any (fun e => seen.contains e))
      · simp only [if_pos hc]
        exact List.mem_cons_of_mem a (ih _ r hmem hev)
      · simp only [if_neg hc]
        exact ih seen r hmem hev

theorem dedupe_cond_of_not_seen (seen : List String) (ev : List String)
    (h : ∀ e ∈ ev, e ∉ seen) :
    (ev.isEmpty || !(ev.any (fun e => seen.contains e))) = true := by
  by_cases hev : ev.isEmpty
  · simp [hev]
  · simp only [Bool.or_eq_true]
    right
    rw [Bool.not_eq_eq_eq_not, Bool.not_true, List.any_eq_false]
    intro e he
    simpa using h e he

theorem dedupe_shared_events_cons (mk : List Market) (r : OIEntry) (rest : List OIEntry) :
    dedupe_shared_events (some mk) (r :: rest)
      = r :: dedupeGo mk (eventsOfId mk r.id) rest := by
  rw [dedupe_shared_events, dedupeGo,
      if_pos (dedupe_cond_of_not_seen [] _ (by simp)), List.nil_append]

theorem dedupeGo_accept_of_fresh (mk : List Market) :
    ∀ (l₁ : List OIEntry) (seen : List String) (a : OIEntry) (l₂ : List OIEntry),
      (∀ e ∈ eventsOfId mk a.id, e ∉ seen) →
      (∀ x ∈ l₁, ∀ e ∈ eventsOfId mk a.id, e ∉ eventsOfId mk x.id) →
      a ∈ dedupeGo mk seen (l₁ ++ a :: l₂) := by
  intro l₁
  induction l₁ with
  | nil =>
    intro seen a l₂ hseen _
    rw [List.nil_append, dedupeGo, if_pos (dedupe_cond_of_not_seen seen _ hseen)]
    exact List.mem_cons_self _ _
  | cons x l₁ ih =>
    intro seen a l₂ hseen hfresh
    rw [List.cons_append, dedupeGo]
    by_cases hc : (eventsOfId mk x.id).isEmpty
        || !((eventsOfId mk x.id).any (fun e => seen.contains e))
    · simp only [if_pos hc]
      refine List.mem_cons_of_mem x (ih _ a l₂ ?_ ?_)
      · intro e he hmem
        rw [List.mem_append] at hmem
        rcases hmem with h | h
        · exact hseen e he h
        · exact hfresh x (List.mem_cons_self x l₁) e he h
      · intro y hy e he
        exact hfresh y (List.mem_cons_of_mem x hy) e he
    · simp only [if_neg hc]
      exact ih seen a l₂ hseen (fun y hy e he => hfresh y (List.mem_cons_of_mem x hy) e he)

theorem dedupeGo_first_seen_wins (mk : List Market)
    (l₁ : List OIEntry) (a : OIEntry) (l₂ : List OIEntry) (b : OIEntry) (l₃ : List OIEntry)
    (hab : a ≠ b)
    (hfresh : ∀ x ∈ l₁, ∀ e ∈ eventsOfId mk a.id, e ∉ eventsOfId mk x.id)
    (hshare : ∃ e, e ∈ eventsOfId mk a.id ∧ e ∈ eventsOfId mk b.id) :
    a ∈ dedupe_shared_events (some mk) (l₁ ++ a :: l₂ ++ b :: l₃)
    ∧ b ∉ dedupe_shared_events (some mk) (l₁ ++ a :: l₂ ++ b :: l₃) := by
  have ha : a ∈ dedupe_shared_events (some mk) (l₁ ++ a :: l₂ ++ b :: l₃) := by
    rw [dedupe_shared_events]
    have := dedupeGo_accept_of_fresh mk l₁ [] a (l₂ ++ b :: l₃) (by simp) hfresh
    simpa using this
  refine ⟨ha, fun hb => ?_⟩
  obtain ⟨e, hea, heb⟩ := hshare
  have hpw := dedupeGo_pairwise mk (l₁ ++ a :: l₂ ++ b :: l₃) []
  have hpw2 : (dedupeGo mk [] (l₁ ++ a :: l₂ ++ b :: l₃)).Pairwise
      (fun x y => (∀ e ∈ eventsOfId mk x.id, e ∉ eventsOfId mk y.id)
        ∨ (∀ e ∈ eventsOfId mk y.id, e ∉ eventsOfId mk x.id)) :=
    hpw.imp (fun h => Or.inl h)
  have hsym : Symmetric (fun x y : OIEntry =>
      (∀ e ∈ eventsOfId mk x.id, e ∉ eventsOfId mk y.id)
      ∨ (∀ e ∈ eventsOfId mk y.id, e ∉ eventsOfId mk x.id)) :=
    fun x y h => h.symm
  have hrel := List.Pairwise.forall hsym hpw2
    (by simpa [dedupe_shared_events] using ha) (by simpa [dedupe_shared_events] using hb) hab
  rcases hrel with h | h
  · exact h e hea heb
  · exact h e heb hea

theorem addRows_decomp (t : Option ℕ) :
    ∀ (rows acc : List OIEntry), ∃ s, (addRows t rows acc).1 = acc ++ s ∧ s.Sublist rows := by
  intro rows
  induction rows with
  | nil => intro acc; exact ⟨[], by simp [addRows], List.nil_sublist _⟩
  | cons r rest ih =>
    intro acc
    rw [addRows]
    by_cases hfresh : acc.all (fun x => decide (r.id ≠ x.id))
    · simp only [if_pos hfresh]
      by_cases hreach : reachedTopN t (acc ++ [r])
      · simp only [if_pos hreach]
        exact ⟨[r], rfl, (List.nil_sublist rest).cons₂ r⟩
      · simp only [if_neg hreach]
        obtain ⟨s, hs, hsub⟩ := ih (acc ++ [r])
        exact ⟨r :: s, by rw [hs]; simp, hsub.cons₂ r⟩
    · simp only [if_neg hfresh]
      obtain ⟨s, hs, hsub⟩ := ih acc
      exact ⟨s, hs, hsub.cons r⟩

theorem addRows_nodup (t : Option ℕ) :
    ∀ (rows acc : List OIEntry), (acc.map OIEntry.id).Nodup →
      ((addRows t rows acc).1.map OIEntry.id).Nodup := by
  intro rows
  induction rows with
  | nil => intro acc h; simpa [addRows] using h
  | cons r rest ih =>
    intro acc h
    rw [addRows]
    by_cases hfresh : acc.all (fun x => decide (r.id ≠ x.id))
    · have hnotin : r.id ∉ acc.map OIEntry.id := by
        rw [List.all_eq_true] at hfresh
        intro hmem
        rw [List.mem_map] at hmem
        obtain ⟨x, hx, hxid⟩ := hmem
        exact absurd hxid.symm (by simpa using hfresh x hx)
      have h2 : ((acc ++ [r]).map OIEntry.id).Nodup := by
        rw [List.map_append]
        refine List.Nodup.append h (by simp) ?_
        simpa [List.disjoint_singleton] using hnotin
      simp only [if_pos hfresh]
      by_cases hreach : reachedTopN t (acc ++ [r])
      · simp only [if_pos hreach]
        exact h2
      · simp only [if_neg hreach]
        exact ih _ h2
    · simp only [if_neg hfresh]
      exact ih _ h

theorem addRows_false_lt (n : ℕ) (hn : n ≠ 0) :
    ∀ (rows acc : List OIEntry), acc.length < n →
      (addRows (some n) rows acc).2 = false →
      (addRows (some n) rows acc).1.length < n := by
  intro rows
  induction rows with
  | nil => intro acc h hf; simpa [addRows] using h
  | cons r rest ih =>
    intro acc h hf
    rw [addRows] at hf ⊢
    by_cases hfresh : acc.all (fun x => decide (r.id ≠ x.id))
    · simp only [if_pos hfresh] at hf ⊢
      by_cases hreach : reachedTopN (some n) (acc ++ [r])
      · rw [if_pos hreach] at hf
        simp at hf
      · rw [if_neg hreach] at hf ⊢
        have hlen : (acc ++ [r]).length < n := by
          rw [reachedTopN] at hreach
          simp only [if_neg hn, decide_eq_true_eq] at hreach
          omega
        exact ih _ hlen hf
    · simp only [if_neg hfresh] at hf ⊢
      exact ih acc h hf

theorem finalizeResult_length_le (n : ℕ) (hn : n ≠ 0) (l : List OIEntry) :
    (finalizeResult (some n) l).length ≤ n := by
  rw [finalizeResult]
  simp only [if_neg hn, List.length_take]
  omega

theorem finalizeResult_sublist (t : Option ℕ) (l : List OIEntry) :
    (finalizeResult t l).Sublist l := by
  cases t with
  | none => exact List.Sublist.refl l
  | some n =>
    rw [finalizeResult]
    by_cases hn : n = 0
    · simp [hn]
    · simp only [if_neg hn]
      exact List.take_sublist n l

theorem getOisGo_result_finalize (m? : Option (List Market)) (t : Option ℕ) (bs : ℕ) :
    ∀ (pages : List (List OIEntry)) (res : List OIEntry),
      ∃ acc, (getOisGo m? t bs pages res).1 = finalizeResult t acc
        ∧ ((res.map OIEntry.id).Nodup → (acc.map OIEntry.id).Nodup) := by
  intro pages
  induction pages with
  | nil => intro res; exact ⟨res, rfl, id⟩
  | cons page rest ih =>
    intro res
    rw [getOisGo]
    by_cases hemp : page.isEmpty
    · simp only [if_pos hemp]
      exact ⟨res, rfl, id⟩
    · simp only [if_neg hemp]
      by_cases hflag : (addRows t (dedupe_shared_events m? page) res).2
      · simp only [hflag, if_true]
        exact ⟨_, rfl, fun h => addRows_nodup t _ res h⟩
      · simp only [hflag, Bool.false_eq_true, if_false]
        by_cases hshort : page.length < bs
        · rw [if_pos hshort]
          exact ⟨_, rfl, fun h => addRows_nodup t _ res h⟩
        · rw [if_neg hshort]
          obtain ⟨acc, hacc, hnd⟩ := ih (addRows t (dedupe_shared_events m? page) res).1
          exact ⟨acc, hacc, fun h => hnd (addRows_nodup t _ res h)⟩

theorem getOisGo_fetch_full (m? : Option (List Market)) (n : ℕ) (hn : n ≠ 0) (bs : ℕ) :
    ∀ (pages : List (List OIEntry)) (res : List OIEntry), res.length < n →
      ∀ i, i + 1 < (getOisGo m? (some n) bs pages res).2 →
        ∃ p, pages.get? i = some p ∧ p ≠ [] ∧ bs ≤ p.length
          ∧ (accAfter m? (some n) (pages.take (i + 1)) res).length < n := by
  intro pages
  induction pages with
  | nil =>
    intro res hres i hi
    rw [getOisGo] at hi
    simp at hi
  | cons page rest ih =>
    intro res hres i hi
    rw [getOisGo] at hi
    by_cases hemp : page.isEmpty
    · rw [if_pos hemp] at hi
      simp at hi
    · simp only [if_neg hemp] at hi
      by_cases hflag : (addRows (some n) (dedupe_shared_events m? page) res).2
      · simp [hflag] at hi
      · simp only [hflag, Bool.false_eq_true, if_false] at hi
        by_cases hshort : page.length < bs
        · rw [if_pos hshort] at hi
          simp at hi
        · rw [if_neg hshort] at hi
          have hstep : (addRows (some n) (dedupe_shared_events m? page) res).1.length < n :=
            addRows_false_lt n hn _ res hres (by simpa using hflag)
          cases i with
          | zero =>
            refine ⟨page, rfl, by simpa [List.isEmpty_iff] using hemp, not_lt.mp hshort, ?_⟩
            simpa [accAfter] using hstep
          | succ j =>
            have hj : j + 1 < (getOisGo m? (some n) bs rest
                (addRows (some n) (dedupe_shared_events m? page) res).1).2 := by
              simp only at hi
              omega
            obtain ⟨p, hp, hpne, hple, hacc⟩ := ih _ hstep j hj
            refine ⟨p, by simpa using hp, hpne, hple, ?_⟩
            simpa [accAfter] using hacc

theorem getOis_single_sublist (m? : Option (List Market)) (t : Option ℕ)
    (page : List OIEntry) :
    ((get_ois m? t [page]).1).Sublist (dedupe_shared_events m? page) := by
  rw [get_ois, getOisGo]
  by_cases hemp : page.isEmpty
  · simp only [if_pos hemp]
    exact (finalizeResult_sublist t []).trans (List.nil_sublist _)
  · simp only [if_neg hemp]
    obtain ⟨s, hs, hsub⟩ := addRows_decomp t (dedupe_shared_events m? page) []
    have hstep : (addRows t (dedupe_shared_events m? page) []).1.Sublist
        (dedupe_shared_events m? page) := by
      rw [hs]
      simpa using hsub
    by_cases hflag : (addRows t (dedupe_shared_events m? page) []).2
    · simp only [hflag, if_true]
      exact (finalizeResult_sublist t _).trans hstep
    · simp only [hflag, Bool.false_eq_true, if_false]
      by_cases hshort : page.length < batchSizeOf t
      · rw [if_pos hshort]
        exact (finalizeResult_sublist t _).trans hstep
      · rw [if_neg hshort]
        rw [getOisGo]
        exact (finalizeResult_sublist t _).trans hstep

/-! ## Claim C2 -/

/-- Concrete catalog for the C2 counterexample: 101 markets that all
belong to the same parent event `"E"`. -/
def cexMarkets : List Market :=
  ((List.range 100).map (fun i =>
    ⟨"m" ++ toString i, "", none, none, none, ["E"]⟩))
  ++ [⟨"x", "", none, none, none, ["E"]⟩]

/-- Concrete page sequence for the C2 counterexample: a full first page
(100 rows, the batch size for `top_n = 10`) followed by a second page
holding the market `"x"`. -/
def cexPages : List (List OIEntry) :=
  [(List.range 100).map (fun i => ⟨"m" ++ toString i, ((100 - i : ℕ) : ℚ)⟩),
   [⟨"x", 1⟩]]

/-- C2 counterexample: `dedupe_shared_events` is applied per fetched
page with a fresh `seen` set, so after a full first page (all 100 rows
sharing event `"E"`, deduplicated to the single row `"m0"`) the second
page's row `"x"` — which shares event `"E"` with `"m0"` — is accepted
as well: the final ranked result contains two entries with a common
event identifier. -/
theorem C2_cross_page_shared_event_cex :
    ((get_ois (some cexMarkets) (some 10) cexPages).1).map OIEntry.id = ["m0", "x"]
  ∧ "E" ∈ eventsOfId cexMarkets "m0"
  ∧ "E" ∈ eventsOfId cexMarkets "x" := by
  refine ⟨by decide, by decide, by decide⟩

/-- C2 amended: the deduplication invariant holds per fetched page (the
`seen` set is reset between pages): within one page an entry is
accepted only if none of its event ids was seen from a previously
accepted entry, acceptance marks all its event ids seen, so the
accepted entries of a page preserve query order, are pairwise
event-disjoint, and an entry with no event ids is never excluded; the
page's first row is always kept, an entry none of whose event ids
occurs among any earlier row of the page is always accepted, and hence
of two event-sharing entries where the earlier (higher-amount, the
page being amount-descending; ties first-seen) one is unblocked, only
that earlier one appears — the spec's amounts-[50, 30, 30] example
with the two 30s sharing an event ranks to [50's market, the first
30].  Consequently a *single-page* ranking contains no two entries
sharing an event id — but entries from different pages may. -/
theorem C2_page_dedupe_invariant (mk : List Market) (rows : List OIEntry) :
    (dedupe_shared_events (some mk) rows).Sublist rows
  ∧ (dedupe_shared_events (some mk) rows).Pairwise
      (fun a b => ∀ e, e ∈ eventsOfId mk a.id → e ∉ eventsOfId mk b.id)
  ∧ (∀ r ∈ rows, eventsOfId mk r.id = [] → r ∈ dedupe_shared_events (some mk) rows)
  ∧ (∀ (t : Option ℕ) (page : List OIEntry),
      ((get_ois (some mk) t [page]).1).Pairwise
        (fun a b => ∀ e, e ∈ eventsOfId mk a.id → e ∉ eventsOfId mk b.id))
  ∧ (∀ (r : OIEntry) (rest : List OIEntry),
      (dedupe_shared_events (some mk) (r :: rest)).head? = some r)
  ∧ (∀ (l₁ : List OIEntry) (a : OIEntry) (l₂ : List OIEntry),
      (∀ x ∈ l₁, ∀ e ∈ eventsOfId mk a.id, e ∉ eventsOfId mk x.id) →
      a ∈ dedupe_shared_events (some mk) (l₁ ++ a :: l₂))
  ∧ (∀ (l₁ : List OIEntry) (a : OIEntry) (l₂ : List OIEntry) (b : OIEntry)
        (l₃ : List OIEntry),
      a ≠ b →
      (∀ x ∈ l₁, ∀ e ∈ eventsOfId mk a.id, e ∉ eventsOfId mk x.id) →
      (∃ e, e ∈ eventsOfId mk a.id ∧ e ∈ eventsOfId mk b.id) →
      a ∈ dedupe_shared_events (some mk) (l₁ ++ a :: l₂ ++ b :: l₃)
      ∧ b ∉ dedupe_shared_events (some mk) (l₁ ++ a :: l₂ ++ b :: l₃))
  ∧ (dedupe_shared_events
      (some [⟨"a", "", none, none, none, ["EA"]⟩, ⟨"b", "", none, none, none, ["EB"]⟩,
             ⟨"c", "", none, none, none, ["EB"]⟩])
      [⟨"a", 50⟩, ⟨"b", 30⟩, ⟨"c", 30⟩]).map OIEntry.id = ["a", "b"] := by
  refine ⟨?_, ?_, ?_, ?_, ?_, ?_, ?_, ?_⟩
  · exact dedupeGo_sublist mk rows []
  · exact dedupeGo_pairwise mk rows []
  · intro r hr hev
    exact dedupeGo_eventless_mem mk rows [] r hr hev
  · intro t page
    exact List.Pairwise.sublist (getOis_single_sublist (some mk) t page)
      (dedupeGo_pairwise mk page [])
  · intro r rest
    rw [dedupe_shared_events_cons]
    rfl
  · intro l₁ a l₂ hfresh
    rw [dedupe_shared_events]
    exact dedupeGo_accept_of_fresh mk l₁ [] a l₂ (by simp) hfresh
  · exact fun l₁ a l₂ b l₃ hab hfresh hshare =>
      dedupeGo_first_seen_wins mk l₁ a l₂ b l₃ hab hfresh hshare
  · decide

/-- Witness for C2: the [50, 30, 30] page with the two 30-amount
markets sharing event `"EB"` — the first 30 is kept, the second is
dropped. -/
theorem C2_page_dedupe_invariant_witness :
    (⟨"b", 30⟩ : OIEntry) ∈ dedupe_shared_events
        (some [⟨"a", "", none, none, none, ["EA"]⟩, ⟨"b", "", none, none, none, ["EB"]⟩,
               ⟨"c", "", none, none, none, ["EB"]⟩])
        [⟨"a", 50⟩, ⟨"b", 30⟩, ⟨"c", 30⟩]
  ∧ (⟨"c", 30⟩ : OIEntry) ∉ dedupe_shared_events
        (some [⟨"a", "", none, none, none, ["EA"]⟩, ⟨"b", "", none, none, none, ["EB"]⟩,
               ⟨"c", "", none, none, none, ["EB"]⟩])
        [⟨"a", 50⟩, ⟨"b", 30⟩, ⟨"c", 30⟩] :=
  (C2_page_dedupe_invariant
      [⟨"a", "", none, none, none, ["EA"]⟩, ⟨"b", "", none, none, none, ["EB"]⟩,
       ⟨"c", "", none, none, none, ["EB"]⟩]
      [⟨"a", 50⟩, ⟨"b", 30⟩, ⟨"c", 30⟩]).2.2.2.2.2.2.1
    [⟨"a", 50⟩] ⟨"b", 30⟩ [] ⟨"c", 30⟩ []
    (by decide) (by decide) ⟨"EB", by decide, by decide⟩

/-! ## Claim C9 -/

/-- C9 counterexample: Python truthiness makes a requested count of 0
behave like "no limit" (`result[:top_n] if top_n else result`), so the
call with `top_n = 0` returns a list longer than the requested count. -/
theorem C9_topn_zero_cex :
    ((get_ois none (some 0) [[⟨"a", 5⟩]]).1).length = 1
  ∧ ¬((get_ois none (some 0) [[⟨"a", 5⟩]]).1).length ≤ 0 := by
  refine ⟨by decide, by decide⟩

/-- C9 amended: for every *positive* requested count `n` the ranked
result has length at most `n`, no market id appears twice in it, and
whenever the pagination went on to fetch page `i + 1` it did so only
because page `i` existed, was non-empty, was not shorter than the
batch size, and fewer than `n` entries had been accepted after
processing it. -/
theorem C9_ranker_invariants (markets? : Option (List Market)) (n : ℕ) (hn : n ≠ 0)
    (pages : List (List OIEntry)) :
    ((get_ois markets? (some n) pages).1).length ≤ n
  ∧ (((get_ois markets? (some n) pages).1).map OIEntry.id).Nodup
  ∧ (∀ i, i + 1 < (get_ois markets? (some n) pages).2 →
      ∃ p, pages.get? i = some p ∧ p ≠ [] ∧ batchSizeOf (some n) ≤ p.length
        ∧ (accAfter markets? (some n) (pages.take (i + 1)) []).length < n) := by
  obtain ⟨acc, hacc, hnd⟩ :=
    getOisGo_result_finalize markets? (some n) (batchSizeOf (some n)) pages []
  refine ⟨?_, ?_, ?_⟩
  · rw [get_ois, hacc]
    exact finalizeResult_length_le n hn acc
  · rw [get_ois, hacc]
    exact List.Nodup.sublist
      (List.Sublist.map OIEntry.id (finalizeResult_sublist (some n) acc))
      (hnd (by simp))
  · intro i hi
    exact getOisGo_fetch_full markets? n hn _ pages []
      (by simpa using Nat.pos_of_ne_zero hn) i hi

/-- Witness for C9: one page, requested count 1. -/
theorem C9_ranker_invariants_witness :
    ((get_ois none (some 1) [[⟨"a", (5 : ℚ)⟩]]).1).length ≤ 1 :=
  (C9_ranker_invariants none 1 (by decide) [[⟨"a", (5 : ℚ)⟩]]).1

end Polytrack
